import Mathlib

/-!
Verification development for the slow-query tracker of
`go-mongo-slow-queries` (`internal/mongoslow/slow.go`).

The embedding models one tick of `MongoSlow.Run`: parsing each raw
snapshot entry (`Parse`), the delta computation and counter emission for
in-flight operations (`Query.Inc`), the completion pass that emits
histogram observations (`Query.Observe`), appends to the history ring
(`MongoSlow.History`), and prunes the two tracker maps.

The Prometheus counter/histogram sinks are modelled as a list of emitted
`Event`s; the two Go maps `runningQueryTimes`/`runningQueries` are
modelled as association lists with Go map semantics (update in place,
read of a missing key yields the zero value); `container/ring` is
modelled as a fixed list of optional slots plus a cursor.  Go runtime
panics (failed type assertions in `Parse`, the nil-pointer dereference
that `q.Observe` would perform if `runningQueries` lacked an entry) are
modelled by `Option`/a dedicated `panic` outcome: a tick that panics
returns `none`.

`int64`/`int32` values are embedded as `Int`; the only arithmetic the
code performs on them is the delta subtraction, which is wrapped with
explicit two's-complement semantics (`wrap64`).  Float values handed to
the sinks are modelled exactly in `ℚ`.
-/

namespace Mongoslow

/-- A BSON-like dynamic value, the element type of the untyped
`primitive.M` documents the snapshot feed delivers. -/
inductive BVal where
  | vInt32 (n : Int)
  | vInt64 (n : Int)
  | vString (s : String)
  | vArr (elems : List BVal)
  | vDoc (fields : List (String × BVal))

/-- A raw snapshot entry: an untyped key/value document (`primitive.M`). -/
abbrev RawDoc := List (String × BVal)

/-- Go map read on a raw document (`query["opid"]` etc.): the value under
the key, if present. -/
def lookupKey : RawDoc → String → Option BVal
  | [], _ => none
  | (k, v) :: rest, key => if k = key then some v else lookupKey rest key

mutual
/-- Models `encoding/json.Marshal` applied to a BSON value: renders the
value as a JSON-like string.  For these values `Marshal` never fails, so
the modelled serializer is total.  The field it feeds (`Query.Command`)
is diagnostic only and no metric or tracking decision reads it. -/
def bvalRepr : BVal → String
  | .vInt32 n => toString n
  | .vInt64 n => toString n
  | .vString s => "\x22" ++ s ++ "\x22"
  | .vArr elems => "[" ++ String.intercalate "," (bArrRepr elems) ++ "]"
  | .vDoc fields => "\x7b" ++ String.intercalate "," (bDocRepr fields) ++ "\x7d"

/-- Renders each element of a BSON array. -/
def bArrRepr : List BVal → List String
  | [] => []
  | v :: rest => bvalRepr v :: bArrRepr rest

/-- Renders each field of a BSON document. -/
def bDocRepr : List (String × BVal) → List String
  | [] => []
  | (k, v) :: rest => ("\x22" ++ k ++ "\x22:" ++ bvalRepr v) :: bDocRepr rest
end

/-- `json.Marshal(query["command"])`: a missing key is Go `nil`, which
marshals to `"null"`; otherwise the value is rendered. -/
def jsonMarshal : Option BVal → String
  | none => "null"
  | some v => bvalRepr v

/-- Number of items the slow-query history ring keeps (`HistoryLen`). -/
def HistoryLen : Nat := 1000

/-- Minimum final elapsed microseconds for a completed query to enter the
history (`HistoryQueryThreshold`, 5s). -/
def HistoryQueryThreshold : Int := 5000000

/-- `trimRandomBytes`: drop everything from the last `-` on; a string
with no `-` is returned unchanged.  `strings.LastIndex` is modelled on
the character list (`-` is one byte, so byte and character indices of the
last hyphen coincide). -/
def lastIndex : List Char → Char → Option Nat
  | [], _ => none
  | x :: xs, c =>
    match lastIndex xs c with
    | some i => some (i + 1)
    | none => if x = c then some 0 else none

/-- `trimRandomBytes(user)` from `slow.go`. -/
def trimRandomBytes (user : String) : String :=
  match lastIndex user.data '-' with
  | none => user
  | some last => ⟨user.data.take last⟩

/-- The `Query` struct of `slow.go`. -/
structure Query where
  OperationID : Int
  EffectiveUser : String
  RunningMicros : Int
  DeltaMicros : Int
  Operation : String
  Namespace : String
  Command : String
  Raw : RawDoc

/-- Outcome of `Parse`: a record, a returned `error`, or a Go runtime
panic (a failed type assertion such as `opid.(int32)`, indexing an empty
`effectiveUsers` slice, or asserting a nil map entry to `string`). -/
inductive ParseResult where
  | ok (q : Query)
  | err (msg : String)
  | panic

/-- True exactly on the `panic` outcome. -/
def ParseResult.isPanic : ParseResult → Bool
  | .panic => true
  | _ => false

/-- True exactly on the `err` outcome. -/
def ParseResult.isErr : ParseResult → Bool
  | .err _ => true
  | _ => false

/-- `Parse(query primitive.M) (*Query, error)` from `slow.go`.  Each
required key is looked up (missing key → returned error with the exact
message from the source) and then type-asserted (wrong dynamic type →
runtime panic).  `effectiveUsers` is asserted to an array, indexed at 0
(empty array → panic), the element asserted to a document whose `user`
field is asserted to a string (missing or non-string → panic, since the
Go code asserts without the two-result form). -/
def Parse (query : RawDoc) : ParseResult :=
  match lookupKey query "opid" with
  | none => .err "missing opid field"
  | some (.vInt32 opid) =>
    match lookupKey query "microsecs_running" with
    | none => .err "missing microseconds_running"
    | some (.vInt64 micros) =>
      match lookupKey query "op" with
      | none => .err "missing op"
      | some (.vString op) =>
        match lookupKey query "ns" with
        | none => .err "missing ns"
        | some (.vString ns) =>
          match lookupKey query "effectiveUsers" with
          | none => .err "missing effective user field"
          | some (.vArr (firstUser :: _)) =>
            match firstUser with
            | .vDoc fields =>
              match lookupKey fields "user" with
              | some (.vString username) =>
                .ok { OperationID := opid
                      EffectiveUser := trimRandomBytes username
                      RunningMicros := micros
                      DeltaMicros := 0
                      Operation := op
                      Namespace := ns
                      Command := jsonMarshal (lookupKey query "command")
                      Raw := query }
              | _ => .panic
            | _ => .panic
          | some (.vArr []) => .panic
          | some _ => .panic
        | some _ => .panic
      | some _ => .panic
    | some _ => .panic
  | some _ => .panic

/-- One emission to the Prometheus sinks: a counter `Add` or a histogram
`Observe`, with the three label values and the float value in ℚ. -/
inductive Event where
  | counterAdd (user op ns : String) (value : ℚ)
  | histObserve (user op ns : String) (value : ℚ)
  deriving DecidableEq

/-- `Query.Inc`: emit a counter increment of the delta converted to
milliseconds, unless the delta is below the 10000µs noise floor. -/
def Query.Inc (q : Query) : List Event :=
  if q.DeltaMicros < 10000 then []
  else [.counterAdd q.EffectiveUser q.Operation q.Namespace ((q.DeltaMicros : ℚ) / 1000)]

/-- `Query.Observe`: emit a histogram observation of the elapsed time
converted to seconds, for queries that ran longer than 500000µs. -/
def Query.Observe (q : Query) : List Event :=
  if q.RunningMicros > 500000 then
    [.histObserve q.EffectiveUser q.Operation q.Namespace ((q.RunningMicros : ℚ) / 1000000)]
  else []

/-- The `container/ring` history: a fixed block of slots (initially all
`nil`) and the cursor the next append writes to. -/
structure SlowRing where
  slots : List (Option Query)
  pos : Nat

/-- `ring.New(cap)`: `cap` empty slots, cursor at the start. -/
def SlowRing.new (cap : Nat) : SlowRing :=
  ⟨List.replicate cap none, 0⟩

/-- `MongoSlow.History`: write the record at the cursor and advance the
cursor one slot (wrapping). -/
def History (r : SlowRing) (q : Query) : SlowRing :=
  ⟨r.slots.set r.pos (some q), (r.pos + 1) % r.slots.length⟩

/-- Association-list lookup, modelling a Go map read (`m[k]`, found
flag). -/
def lookupA {α : Type} : List (Int × α) → Int → Option α
  | [], _ => none
  | (k, v) :: rest, key => if k = key then some v else lookupA rest key

/-- Association-list update, modelling a Go map write (`m[k] = v`):
replace the entry in place if the key exists, otherwise add it. -/
def upsert {α : Type} : List (Int × α) → Int → α → List (Int × α)
  | [], key, v => [(key, v)]
  | (k, w) :: rest, key, v =>
    if k = key then (key, v) :: rest else (k, w) :: upsert rest key v

/-- Association-list removal, modelling `delete(m, k)`. -/
def eraseA {α : Type} : List (Int × α) → Int → List (Int × α)
  | [], _ => []
  | (k, w) :: rest, key => if k = key then rest else (k, w) :: eraseA rest key

/-- Key list of an association list. -/
def keysA {α : Type} (l : List (Int × α)) : List Int := l.map Prod.fst

/-- The mutable state of `MongoSlow` that the tracking logic touches:
the two maps and the history ring.  The mongo client and the two
Prometheus vector handles carry no tracked state (emissions are returned
as `Event` lists instead). -/
structure MongoSlow where
  runningQueryTimes : List (Int × Int)
  runningQueries : List (Int × Query)
  history : SlowRing

/-- The state `New` initialises: empty maps, fresh ring of `HistoryLen`
slots. -/
def New : MongoSlow :=
  ⟨[], [], SlowRing.new HistoryLen⟩

/-- Two's-complement wrap of `int64` arithmetic. -/
def wrap64 (x : Int) : Int :=
  (x + 2 ^ 63) % 2 ^ 64 - 2 ^ 63

/-- The first loop of one `Run` tick (`for _, query := range queries`).
Each raw entry is parsed; a parse error skips the entry (`continue`), a
panic aborts (`none`).  A parsed record gets its delta (against
`runningQueryTimes` if tracked, else its full elapsed time), `Inc` is
called, both maps are updated and the opid is marked present.  Returns
the updated state, the present-opid set, and the emitted events. -/
def phase1 (s : MongoSlow) (cur : List Int) : List RawDoc → Option (MongoSlow × List Int × List Event)
  | [] => some (s, cur, [])
  | raw :: rest =>
    match Parse raw with
    | .panic => none
    | .err _ => phase1 s cur rest
    | .ok q0 =>
      let q : Query :=
        match lookupA s.runningQueryTimes q0.OperationID with
        | some lastMicrosecs => { q0 with DeltaMicros := wrap64 (q0.RunningMicros - lastMicrosecs) }
        | none => { q0 with DeltaMicros := q0.RunningMicros }
      let s' : MongoSlow :=
        { s with
          runningQueryTimes := upsert s.runningQueryTimes q.OperationID q.RunningMicros
          runningQueries := upsert s.runningQueries q.OperationID q }
      (phase1 s' (q.OperationID :: cur) rest).map
        (fun sce => (sce.1, sce.2.1, q.Inc ++ sce.2.2))

/-- The second loop of one `Run` tick (`for opid := range
s.runningQueryTimes`): every tracked opid not present in the snapshot is
completed — `Observe` its last record, append it to the history when its
elapsed time exceeds `HistoryQueryThreshold` and its namespace is not
`admin.$cmd`, and delete it from both maps.  If `runningQueries` has no
record for the opid, the Go code calls `Observe` on a nil pointer and
panics (`none`). -/
def phase2 (s : MongoSlow) (cur : List Int) : List Int → Option (MongoSlow × List Event)
  | [] => some (s, [])
  | opid :: rest =>
    if opid ∈ cur then phase2 s cur rest
    else
      let microsecs := (lookupA s.runningQueryTimes opid).getD 0
      match lookupA s.runningQueries opid with
      | none => none
      | some q =>
        let s' : MongoSlow :=
          { s with
            history :=
              if microsecs > HistoryQueryThreshold then
                if q.Namespace ≠ "admin.$cmd" then History s.history q else s.history
              else s.history
            runningQueryTimes := eraseA s.runningQueryTimes opid
            runningQueries := eraseA s.runningQueries opid }
        (phase2 s' cur rest).map (fun se => (se.1, q.Observe ++ se.2))

/-- One full tick of `MongoSlow.Run` after the snapshot has been fetched
and decoded: the per-entry loop followed by the completion loop over the
tracked opids.  `none` models a Go runtime panic during the tick. -/
def runTick (s : MongoSlow) (snapshot : List RawDoc) : Option (MongoSlow × List Event) :=
  (phase1 s [] snapshot).bind
    (fun sce =>
      (phase2 sce.1 sce.2.1 (keysA sce.1.runningQueryTimes)).map
        (fun se => (se.1, sce.2.2 ++ se.2)))

/-- The events one tick emits to the Prometheus sinks, in order. -/
def runTickEvents (s : MongoSlow) (snapshot : List RawDoc) : Option (List Event) :=
  (runTick s snapshot).map (fun se => se.2)

end Mongoslow

namespace Mongoslow

/-! ### Helper lemmas -/

theorem wrap64_eq_of_bounds (x : Int) (h1 : -(2 ^ 63) ≤ x) (h2 : x < 2 ^ 63) :
    wrap64 x = x := by
  unfold wrap64
  have h3 : (0 : Int) ≤ x + 2 ^ 63 := by omega
  have h4 : x + 2 ^ 63 < 2 ^ 64 := by omega
  rw [Int.emod_eq_of_lt h3 h4]
  omega

@[simp] theorem lookupA_nil {α : Type} (k : Int) : lookupA ([] : List (Int × α)) k = none := rfl

@[simp] theorem lookupA_cons {α : Type} (k key : Int) (v : α) (rest : List (Int × α)) :
    lookupA ((k, v) :: rest) key = if k = key then some v else lookupA rest key := rfl

@[simp] theorem upsert_nil {α : Type} (k : Int) (v : α) :
    upsert ([] : List (Int × α)) k v = [(k, v)] := rfl

@[simp] theorem upsert_cons {α : Type} (k key : Int) (w v : α) (rest : List (Int × α)) :
    upsert ((k, w) :: rest) key v =
      if k = key then (key, v) :: rest else (k, w) :: upsert rest key v := rfl

@[simp] theorem eraseA_nil {α : Type} (k : Int) : eraseA ([] : List (Int × α)) k = [] := rfl

@[simp] theorem eraseA_cons {α : Type} (k key : Int) (w : α) (rest : List (Int × α)) :
    eraseA ((k, w) :: rest) key = if k = key then rest else (k, w) :: eraseA rest key := rfl

@[simp] theorem phase1_nil (s : MongoSlow) (cur : List Int) :
    phase1 s cur [] = some (s, cur, []) := rfl

@[simp] theorem phase2_nil (s : MongoSlow) (cur : List Int) :
    phase2 s cur [] = some (s, []) := rfl

/-! ### C1 -/

/-- **C1.** An operation already tracked with prior elapsed value `E1`
and observed again with elapsed value `E2 = q.RunningMicros` produces,
in the tick's emitted events, exactly one counter increment of
`(E2 - E1)/1000` milliseconds keyed by (user, operation, namespace) when
`E2 - E1` is at least the 10000µs noise floor, and no counter emission
at all when the delta is below the noise floor. -/
theorem C1_tracked_counter_delta
    (i E1 : Int) (qPrev : Query) (h : SlowRing) (q : Query) (raw : RawDoc)
    (hp : Parse raw = .ok q) (hid : q.OperationID = i)
    (hE1l : 0 ≤ E1) (hE1u : E1 < 2 ^ 63)
    (hE2l : 0 ≤ q.RunningMicros) (hE2u : q.RunningMicros < 2 ^ 63) :
    runTickEvents ⟨[(i, E1)], [(i, qPrev)], h⟩ [raw] =
      some (if q.RunningMicros - E1 < 10000 then []
            else [.counterAdd q.EffectiveUser q.Operation q.Namespace
                    (((q.RunningMicros - E1 : Int) : ℚ) / 1000)]) := by
  subst hid
  have hw : wrap64 (q.RunningMicros - E1) = q.RunningMicros - E1 :=
    wrap64_eq_of_bounds _ (by omega) (by omega)
  simp [runTickEvents, runTick, phase1, hp, keysA, phase2, Query.Inc, hw]

/-- A concrete raw snapshot entry used by the witnesses: opid 7, elapsed
2000000µs, a `query` on `app.users` by user `bob`. -/
def sampleRaw : RawDoc :=
  [("opid", .vInt32 7), ("microsecs_running", .vInt64 2000000),
   ("op", .vString "query"), ("ns", .vString "app.users"),
   ("effectiveUsers", .vArr [.vDoc [("user", .vString "bob")]])]

/-- The record `Parse sampleRaw` produces. -/
def sampleQ : Query where
  OperationID := 7
  EffectiveUser := "bob"
  RunningMicros := 2000000
  DeltaMicros := 0
  Operation := "query"
  Namespace := "app.users"
  Command := "null"
  Raw := sampleRaw

/-- A concrete previously-stored record for opid 7 (elapsed 1500000µs). -/
def samplePrev : Query where
  OperationID := 7
  EffectiveUser := "bob"
  RunningMicros := 1500000
  DeltaMicros := 1500000
  Operation := "query"
  Namespace := "app.users"
  Command := "null"
  Raw := []

/-- Witness for C1: a tracked operation at 1500000µs observed again at
2000000µs emits one counter increment of 500ms. -/
theorem C1_witness :
    runTickEvents ⟨[(7, 1500000)], [(7, samplePrev)], SlowRing.new 3⟩ [sampleRaw] =
      some (if (2000000 : Int) - 1500000 < 10000 then []
            else [.counterAdd "bob" "query" "app.users"
                    ((((2000000 : Int) - 1500000 : Int) : ℚ) / 1000)]) :=
  C1_tracked_counter_delta 7 1500000 samplePrev (SlowRing.new 3) sampleQ sampleRaw
    rfl rfl (by decide) (by decide) (by decide) (by decide)

/-! ### C2 -/

/-- **C2.** An operation id seen for the first time (no entry in
`runningQueryTimes`) with elapsed value `E = q.RunningMicros` has its
delta set to the full elapsed value, and the tick emits a counter
increment of `E/1000` milliseconds subject to the same 10000µs noise
floor. -/
theorem C2_first_sight_delta (h : SlowRing) (q : Query) (raw : RawDoc)
    (hp : Parse raw = .ok q) :
    runTick ⟨[], [], h⟩ [raw] =
      some (⟨[(q.OperationID, q.RunningMicros)],
             [(q.OperationID, { q with DeltaMicros := q.RunningMicros })], h⟩,
            if q.RunningMicros < 10000 then []
            else [.counterAdd q.EffectiveUser q.Operation q.Namespace
                    ((q.RunningMicros : ℚ) / 1000)]) := by
  simp [runTick, phase1, hp, keysA, phase2, Query.Inc]

/-- Witness for C2: a first-seen operation at 2000000µs emits one
counter increment of 2000ms and is stored with delta equal to its full
elapsed time. -/
theorem C2_witness :
    runTick ⟨[], [], SlowRing.new 3⟩ [sampleRaw] =
      some (⟨[(7, 2000000)], [(7, { sampleQ with DeltaMicros := 2000000 })], SlowRing.new 3⟩,
            if (2000000 : Int) < 10000 then []
            else [.counterAdd "bob" "query" "app.users" (((2000000 : Int) : ℚ) / 1000)]) :=
  C2_first_sight_delta (SlowRing.new 3) sampleQ sampleRaw rfl

end Mongoslow

namespace Mongoslow

/-! ### C3 -/

/-- A concrete raw entry whose elapsed time (1000000µs) is below the
previously stored value, producing a negative delta. -/
def negRaw : RawDoc :=
  [("opid", .vInt32 7), ("microsecs_running", .vInt64 1000000),
   ("op", .vString "query"), ("ns", .vString "app.users"),
   ("effectiveUsers", .vArr [.vDoc [("user", .vString "bob")]])]

/-- The record `Parse negRaw` produces. -/
def negQ : Query where
  OperationID := 7
  EffectiveUser := "bob"
  RunningMicros := 1000000
  DeltaMicros := 0
  Operation := "query"
  Namespace := "app.users"
  Command := "null"
  Raw := negRaw

/-- **C3, counterexample.** Opid 7 was tracked at 2000000µs and is
observed again at 1000000µs, so the computed delta is −1000000µs.  The
claim says this negative delta is passed through to the counter sink
with no suppression of the emission; in fact the tick emits nothing at
all (the stored delta is −1000000, but `Inc` returns early because the
delta is below the 10000µs noise floor), so no value — negative or
otherwise — reaches the counter. -/
theorem C3_counterexample :
    runTick ⟨[(7, 2000000)], [(7, samplePrev)], SlowRing.new 3⟩ [negRaw] =
      some (⟨[(7, 1000000)], [(7, { negQ with DeltaMicros := -1000000 })], SlowRing.new 3⟩,
            []) := rfl

/-- **C3, amended.** For a tracked operation whose newly observed
elapsed value is smaller than the previously recorded one, the negative
delta is computed and stored unmodified — no clamping to zero — but the
emission to the counter sink is suppressed: every negative delta lies
below the 10000µs noise floor, so the tick emits nothing for that
operation. -/
theorem C3_negative_delta_suppressed
    (i E1 : Int) (qPrev : Query) (h : SlowRing) (q : Query) (raw : RawDoc)
    (hp : Parse raw = .ok q) (hid : q.OperationID = i)
    (hneg : q.RunningMicros < E1)
    (hE1u : E1 < 2 ^ 63) (hE2l : 0 ≤ q.RunningMicros) :
    runTick ⟨[(i, E1)], [(i, qPrev)], h⟩ [raw] =
      some (⟨[(i, q.RunningMicros)],
             [(i, { q with DeltaMicros := q.RunningMicros - E1 })], h⟩, []) := by
  subst hid
  have hw : wrap64 (q.RunningMicros - E1) = q.RunningMicros - E1 :=
    wrap64_eq_of_bounds _ (by omega) (by omega)
  have hflr : q.RunningMicros - E1 < 10000 := by omega
  simp [runTick, phase1, hp, keysA, phase2, Query.Inc, hw, hflr]

/-- Witness for the amended C3: tracked at 3000000µs, observed at
1000000µs; the stored delta is −2000000 and nothing is emitted. -/
theorem C3_witness :
    runTick ⟨[(7, 3000000)], [(7, samplePrev)], SlowRing.new 3⟩ [negRaw] =
      some (⟨[(7, 1000000)],
             [(7, { negQ with DeltaMicros := (1000000 : Int) - 3000000 })], SlowRing.new 3⟩,
            []) :=
  C3_negative_delta_suppressed 7 3000000 samplePrev (SlowRing.new 3) negQ negRaw
    rfl rfl (by decide) (by decide) (by decide)

/-! ### C4 -/

/-- **C4.** An operation tracked at tick N (both maps hold opid `i`,
with last elapsed value `q.RunningMicros`) that is absent from the next
snapshot (here the empty snapshot) produces exactly one histogram
observation keyed by (user, operation, namespace) with value
`RunningMicros/1000000` seconds if and only if the last elapsed value
strictly exceeds 500000µs — otherwise no observation — and afterwards
the opid is deleted from both tracker maps. -/
theorem C4_completion_histogram (i : Int) (q : Query) (h : SlowRing) :
    ∃ h' : SlowRing,
      runTick ⟨[(i, q.RunningMicros)], [(i, q)], h⟩ [] =
        some (⟨[], [], h'⟩,
              if q.RunningMicros > 500000 then
                [.histObserve q.EffectiveUser q.Operation q.Namespace
                   ((q.RunningMicros : ℚ) / 1000000)]
              else []) := by
  refine ⟨if q.RunningMicros > HistoryQueryThreshold then
            if q.Namespace ≠ "admin.$cmd" then History h q else h
          else h, ?_⟩
  simp [runTick, phase1, keysA, phase2, Query.Observe]

/-! ### C5 -/

/-- **C5.** A completed (disappeared) operation is appended to the
history ring if and only if its last elapsed value strictly exceeds
`HistoryQueryThreshold` (5000000µs) and its namespace is not the literal
`admin.$cmd`; in particular an `admin.$cmd` operation is never appended
regardless of its elapsed time. -/
theorem C5_history_threshold_and_exclusion (i : Int) (q : Query) (h : SlowRing) :
    ∃ evs : List Event,
      runTick ⟨[(i, q.RunningMicros)], [(i, q)], h⟩ [] =
        some (⟨[], [],
               if q.RunningMicros > HistoryQueryThreshold ∧ q.Namespace ≠ "admin.$cmd" then
                 History h q
               else h⟩, evs) := by
  refine ⟨q.Observe, ?_⟩
  by_cases h1 : q.RunningMicros > HistoryQueryThreshold <;>
    by_cases h2 : q.Namespace = "admin.$cmd" <;>
      simp [runTick, phase1, keysA, phase2, h1, h2]

end Mongoslow

namespace Mongoslow

/-! ### History ring: definitions and lemmas for C6 -/

/-- Append a sequence of records to the history ring, oldest first
(the Tracker performs one `History` call per qualifying completed
operation). -/
def ringAppendAll (r : SlowRing) (L : List Query) : SlowRing :=
  L.foldl History r

/-- The populated slots of the ring read in ring order starting at the
write cursor (oldest to newest), skipping never-written slots. -/
def ringToList (r : SlowRing) : List Query :=
  ((r.slots.drop r.pos) ++ (r.slots.take r.pos)).filterMap id

theorem ringAppendAll_nil (r : SlowRing) : ringAppendAll r [] = r := rfl

theorem ringAppendAll_cons (r : SlowRing) (q : Query) (L : List Query) :
    ringAppendAll r (q :: L) = ringAppendAll (History r q) L := rfl

theorem ringAppendAll_slots_length (L : List Query) : ∀ (r : SlowRing),
    (ringAppendAll r L).slots.length = r.slots.length := by
  induction L with
  | nil => intro r; rfl
  | cons q L ih =>
    intro r
    rw [ringAppendAll_cons, ih]
    simp [History]

theorem ringToList_length_le (r : SlowRing) :
    (ringToList r).length ≤ r.slots.length := by
  have h1 := List.length_filterMap_le (id : Option Query → Option Query)
    ((r.slots.drop r.pos) ++ (r.slots.take r.pos))
  have h2 : ((r.slots.drop r.pos) ++ (r.slots.take r.pos)).length =
      (r.slots.length - r.pos) + min r.pos r.slots.length := by
    simp
  unfold ringToList
  omega

theorem filterMap_id_map_some (l : List Query) :
    (l.map some).filterMap id = l := by
  rw [List.filterMap_map]
  exact List.filterMap_some l

theorem filterMap_id_replicate_none (k : Nat) :
    (List.replicate k (none : Option Query)).filterMap id = [] := by
  induction k with
  | zero => rfl
  | succ n ih => simp [List.replicate_succ, List.filterMap_cons, ih]

theorem ringToList_mk_full (M : List Query) (p : Nat) :
    ringToList ⟨M.map some, p⟩ = M.drop p ++ M.take p := by
  unfold ringToList
  rw [← List.map_drop, ← List.map_take, ← List.map_append, filterMap_id_map_some]

theorem set_append_len {α : Type} : ∀ (l₁ : List α) (x v : α) (l₂ : List α),
    (l₁ ++ x :: l₂).set l₁.length v = l₁ ++ v :: l₂ := by
  intro l₁
  induction l₁ with
  | nil => intro x v l₂; rfl
  | cons a t ih => intro x v l₂; simp [List.set_cons_succ, ih]

theorem drop_append_len {α : Type} : ∀ (l₁ l₂ : List α) (n : Nat),
    (l₁ ++ l₂).drop (l₁.length + n) = l₂.drop n := by
  intro l₁
  induction l₁ with
  | nil => intro l₂ n; simp
  | cons a t ih => intro l₂ n; simpa [Nat.succ_add] using ih l₂ n

theorem take_append_len {α : Type} : ∀ (l₁ l₂ : List α) (n : Nat),
    (l₁ ++ l₂).take (l₁.length + n) = l₁ ++ l₂.take n := by
  intro l₁
  induction l₁ with
  | nil => intro l₂ n; simp
  | cons a t ih => intro l₂ n; simpa [Nat.succ_add] using ih l₂ n

/-- Filling phase: appending to a ring whose populated prefix is
`P.map some` (cursor right after it) extends the prefix, as long as the
total stays within capacity. -/
theorem ringAppendAll_fill (cap : Nat) : ∀ (L P : List Query),
    P.length + L.length ≤ cap →
    ringAppendAll ⟨P.map some ++ List.replicate (cap - P.length) none, P.length % cap⟩ L =
      ⟨(P ++ L).map some ++ List.replicate (cap - (P.length + L.length)) none,
       (P.length + L.length) % cap⟩ := by
  intro L
  induction L with
  | nil => intro P h; simp [ringAppendAll_nil]
  | cons q L ih =>
    intro P h
    have hL : (q :: L).length = L.length + 1 := rfl
    have hPlt : P.length < cap := by omega
    have hslotsLen : (P.map some ++ List.replicate (cap - P.length) (none : Option Query)).length = cap := by
      simp; omega
    have hrep : List.replicate (cap - P.length) (none : Option Query) =
        none :: List.replicate (cap - (P.length + 1)) none := by
      have : cap - P.length = (cap - (P.length + 1)) + 1 := by omega
      rw [this, List.replicate_succ]
    have hstep : History ⟨P.map some ++ List.replicate (cap - P.length) none, P.length % cap⟩ q =
        ⟨(P ++ [q]).map some ++ List.replicate (cap - (P.length + 1)) none, (P.length + 1) % cap⟩ := by
      unfold History
      rw [hslotsLen]
      congr 1
      · rw [Nat.mod_eq_of_lt hPlt, hrep]
        have hlm : (P.map some).length = P.length := List.length_map _ _
        rw [← hlm, set_append_len]
        simp
      · rw [Nat.mod_add_mod]
    rw [ringAppendAll_cons, hstep]
    have h' : (P ++ [q]).length + L.length ≤ cap := by simp; omega
    have heq := ih (P ++ [q]) h'
    have hlen1 : (P ++ [q]).length = P.length + 1 := by simp
    rw [hlen1] at heq
    rw [heq]
    have hassoc : (P ++ [q]) ++ L = P ++ q :: L := by simp
    have h2 : P.length + 1 + L.length = P.length + (L.length + 1) := by omega
    rw [hassoc, h2]
    simp

end Mongoslow

namespace Mongoslow

/-- One append to a fully populated ring overwrites the oldest entry:
read in ring order, the contents lose their head and gain the new record
at the tail. -/
theorem ringToList_full_set (M : List Query) (p : Nat) (q : Query) (hp : p < M.length) :
    ringToList ⟨(M.set p q).map some, (p + 1) % M.length⟩ =
      (ringToList ⟨M.map some, p⟩).drop 1 ++ [q] := by
  rw [ringToList_mk_full, ringToList_mk_full]
  have hT : (M.take p).length = p := by simp [List.length_take]; omega
  have hset : M.set p q = M.take p ++ q :: M.drop (p + 1) := List.set_eq_take_cons_drop q hp
  have hdropp : M.drop p = M[p] :: M.drop (p + 1) := List.drop_eq_getElem_cons hp
  rcases Nat.lt_or_ge (p + 1) M.length with hlt | hge
  · rw [Nat.mod_eq_of_lt hlt, hset]
    have h1 : (M.take p ++ q :: M.drop (p + 1)).drop (p + 1) = M.drop (p + 1) := by
      have := drop_append_len (M.take p) (q :: M.drop (p + 1)) 1
      rw [hT] at this
      simpa using this
    have h2 : (M.take p ++ q :: M.drop (p + 1)).take (p + 1) = M.take p ++ [q] := by
      have := take_append_len (M.take p) (q :: M.drop (p + 1)) 1
      rw [hT] at this
      simpa using this
    rw [h1, h2, hdropp, List.cons_append, List.drop_one, List.tail_cons, List.append_assoc]
  · have hpe : p + 1 = M.length := by omega
    have hmod : (p + 1) % M.length = 0 := by rw [hpe, Nat.mod_self]
    have hde : M.drop (p + 1) = [] := by rw [hpe, List.drop_length]
    rw [hmod, hset, hde, hdropp, hde]
    simp

/-- Steady phase: appending `L` to a fully populated ring keeps it fully
populated and retains, in ring order, the last `capacity` entries of
(old contents ++ L). -/
theorem ringAppendAll_full (cap : Nat) (hcap : 0 < cap) : ∀ (L M : List Query) (p : Nat),
    M.length = cap → p < cap →
    ∃ M' : List Query, M'.length = cap ∧
      ringAppendAll ⟨M.map some, p⟩ L = ⟨M'.map some, (p + L.length) % cap⟩ ∧
      ringToList ⟨M'.map some, (p + L.length) % cap⟩ =
        (ringToList ⟨M.map some, p⟩ ++ L).drop L.length := by
  intro L
  induction L with
  | nil =>
    intro M p hM hp
    have hmod : (p + ([] : List Query).length) % cap = p := by
      simp only [List.length_nil, Nat.add_zero]
      exact Nat.mod_eq_of_lt hp
    refine ⟨M, hM, ?_, ?_⟩
    · rw [ringAppendAll_nil, hmod]
    · rw [hmod]
      simp
  | cons q L ih =>
    intro M p hM hp
    have hpM : p < M.length := by omega
    have hstep : History ⟨M.map some, p⟩ q = ⟨(M.set p q).map some, (p + 1) % cap⟩ := by
      unfold History
      rw [← List.map_set]
      simp [hM]
    rw [ringAppendAll_cons, hstep]
    obtain ⟨M', hM', heq, hlist⟩ := ih (M.set p q) ((p + 1) % cap) (by simp [hM]) (Nat.mod_lt _ hcap)
    have harith : p + 1 + L.length = p + (q :: L).length := by
      simp only [List.length_cons]
      omega
    have hmods : ((p + 1) % cap + L.length) % cap = (p + (q :: L).length) % cap := by
      rw [Nat.mod_add_mod, harith]
    refine ⟨M', hM', ?_, ?_⟩
    · rw [heq, hmods]
    · rw [hmods] at hlist
      rw [hlist]
      have hrot : ringToList ⟨(M.set p q).map some, (p + 1) % cap⟩ =
          (ringToList ⟨M.map some, p⟩).drop 1 ++ [q] := by
        have := ringToList_full_set M p q hpM
        rw [hM] at this
        exact this
      rw [hrot]
      have hRlen : (ringToList ⟨M.map some, p⟩).length = cap := by
        rw [ringToList_mk_full]
        simp only [List.length_append, List.length_drop, List.length_take]
        omega
      obtain ⟨r0, R', hR⟩ : ∃ r0 R', ringToList ⟨M.map some, p⟩ = r0 :: R' := by
        cases hRl : ringToList ⟨M.map some, p⟩ with
        | nil => rw [hRl] at hRlen; simp at hRlen; omega
        | cons a t => exact ⟨a, t, rfl⟩
      rw [hR]
      simp

end Mongoslow

namespace Mongoslow

/-- Appending at most `capacity` records to a fresh ring fills a prefix
of the slots and moves the cursor past them. -/
theorem ringAppendAll_new_under (cap : Nat) (L : List Query) (hle : L.length ≤ cap) :
    ringAppendAll (SlowRing.new cap) L =
      ⟨L.map some ++ List.replicate (cap - L.length) none, L.length % cap⟩ := by
  have h := ringAppendAll_fill cap L [] (by simpa using hle)
  simpa [SlowRing.new] using h

/-- Under capacity, the ring retains every appended record in order. -/
theorem ringToList_new_under (cap : Nat) (L : List Query) (hle : L.length ≤ cap) :
    ringToList (ringAppendAll (SlowRing.new cap) L) = L := by
  rw [ringAppendAll_new_under cap L hle]
  rcases Nat.lt_or_ge L.length cap with hlt | hge2
  · rw [show L.length % cap = L.length from Nat.mod_eq_of_lt hlt]
    unfold ringToList
    have hd : (L.map some ++ List.replicate (cap - L.length) (none : Option Query)).drop L.length =
        List.replicate (cap - L.length) none := List.drop_left' (by simp)
    have ht : (L.map some ++ List.replicate (cap - L.length) (none : Option Query)).take L.length =
        L.map some := List.take_left' (by simp)
    rw [hd, ht, List.filterMap_append, filterMap_id_replicate_none, filterMap_id_map_some]
    simp
  · have heq : L.length = cap := by omega
    rw [heq, Nat.mod_self, Nat.sub_self]
    simp [ringToList, filterMap_id_map_some]

/-- Over capacity, the cursor equals the total append count mod capacity
and the ring retains exactly the last `capacity` records, oldest first. -/
theorem ringAppendAll_new_over (cap : Nat) (hcap : 0 < cap) (L : List Query)
    (hge : cap ≤ L.length) :
    (ringAppendAll (SlowRing.new cap) L).pos = L.length % cap ∧
    ringToList (ringAppendAll (SlowRing.new cap) L) = L.drop (L.length - cap) := by
  have hsplit : ringAppendAll (SlowRing.new cap) L =
      ringAppendAll (ringAppendAll (SlowRing.new cap) (L.take cap)) (L.drop cap) := by
    unfold ringAppendAll
    rw [← List.foldl_append, List.take_append_drop]
  have htake : (L.take cap).length = cap := by
    simp only [List.length_take]
    omega
  have hfst : ringAppendAll (SlowRing.new cap) (L.take cap) = ⟨(L.take cap).map some, 0⟩ := by
    rw [ringAppendAll_new_under cap (L.take cap) (by omega)]
    rw [htake, Nat.mod_self, Nat.sub_self]
    simp
  obtain ⟨M', hM', heq, hlist⟩ := ringAppendAll_full cap hcap (L.drop cap) (L.take cap) 0 htake hcap
  have hdlen : (L.drop cap).length = L.length - cap := by simp
  constructor
  · rw [hsplit, hfst, heq]
    show (0 + (L.drop cap).length) % cap = L.length % cap
    rw [Nat.zero_add, hdlen]
    exact (Nat.mod_eq_sub_mod hge).symm
  · rw [hsplit, hfst, heq, hlist, ringToList_mk_full]
    simp only [List.drop_zero, List.take_zero, List.append_nil]
    rw [List.take_append_drop, hdlen]

/-! ### C6 -/

/-- **C6.** The history ring built by appending any sequence `L` of
qualifying records to a fresh ring of capacity `cap` (the tracker uses
`HistoryLen = 1000`): the slot block never grows beyond `cap`; the
populated entries never exceed `cap`; the write cursor advances by one
per append (its final value is the append count mod `cap`); while at or
under capacity every appended record is retained in order; and once more
than `cap` records have been appended, exactly the `cap` most recent
ones are retained, oldest first — each append overwrites the oldest
slot (FIFO eviction). -/
theorem C6_history_ring_bounded_fifo (cap : Nat) (L : List Query) (hcap : 0 < cap) :
    (ringAppendAll (SlowRing.new cap) L).slots.length = cap ∧
    (ringToList (ringAppendAll (SlowRing.new cap) L)).length ≤ cap ∧
    (ringAppendAll (SlowRing.new cap) L).pos = L.length % cap ∧
    (L.length ≤ cap → ringToList (ringAppendAll (SlowRing.new cap) L) = L) ∧
    (cap ≤ L.length → ringToList (ringAppendAll (SlowRing.new cap) L) = L.drop (L.length - cap)) ∧
    HistoryLen = 1000 := by
  have h1 : (ringAppendAll (SlowRing.new cap) L).slots.length = cap := by
    rw [ringAppendAll_slots_length]
    simp [SlowRing.new]
  refine ⟨h1, ?_, ?_, ?_, ?_, rfl⟩
  · have h2 := ringToList_length_le (ringAppendAll (SlowRing.new cap) L)
    omega
  · rcases Nat.le_total L.length cap with hle | hge
    · rw [ringAppendAll_new_under cap L hle]
    · exact (ringAppendAll_new_over cap hcap L hge).1
  · intro hle
    exact ringToList_new_under cap L hle
  · intro hge
    exact (ringAppendAll_new_over cap hcap L hge).2

/-- Witness for C6 at capacity 1 with one append. -/
theorem C6_witness :
    (ringAppendAll (SlowRing.new 1) [samplePrev]).slots.length = 1 ∧
    (ringToList (ringAppendAll (SlowRing.new 1) [samplePrev])).length ≤ 1 ∧
    (ringAppendAll (SlowRing.new 1) [samplePrev]).pos = [samplePrev].length % 1 ∧
    ([samplePrev].length ≤ 1 → ringToList (ringAppendAll (SlowRing.new 1) [samplePrev]) = [samplePrev]) ∧
    (1 ≤ [samplePrev].length → ringToList (ringAppendAll (SlowRing.new 1) [samplePrev]) =
      [samplePrev].drop ([samplePrev].length - 1)) ∧
    HistoryLen = 1000 :=
  C6_history_ring_bounded_fifo 1 [samplePrev] (by decide)

end Mongoslow

namespace Mongoslow

/-! ### C7 -/

/-- **C7.** After a tracked operation id `i` disappears (empty next
snapshot) and is pruned, a later operation reusing id `i` is handled as
a first sight: its stored delta is its full elapsed time (not the
difference against the completed operation's last value), and the
counter emission follows the first-sight rule. -/
theorem C7_id_reuse (i : Int) (q0 : Query) (h : SlowRing) (q2 : Query) (raw : RawDoc)
    (hp : Parse raw = .ok q2) (hid : q2.OperationID = i) :
    ∃ (s1 : MongoSlow) (evs1 : List Event),
      runTick ⟨[(i, q0.RunningMicros)], [(i, q0)], h⟩ [] = some (s1, evs1) ∧
      runTick s1 [raw] =
        some (⟨[(i, q2.RunningMicros)],
               [(i, { q2 with DeltaMicros := q2.RunningMicros })], s1.history⟩,
              if q2.RunningMicros < 10000 then []
              else [.counterAdd q2.EffectiveUser q2.Operation q2.Namespace
                      ((q2.RunningMicros : ℚ) / 1000)]) := by
  subst hid
  refine ⟨⟨[], [],
      if q0.RunningMicros > HistoryQueryThreshold then
        if q0.Namespace ≠ "admin.$cmd" then History h q0 else h
      else h⟩, q0.Observe, ?_, ?_⟩
  · simp [runTick, phase1, keysA, phase2]
  · simp [runTick, phase1, hp, keysA, phase2, Query.Inc]

/-- Witness for C7 at a concrete reused opid. -/
theorem C7_witness :
    ∃ (s1 : MongoSlow) (evs1 : List Event),
      runTick ⟨[(7, samplePrev.RunningMicros)], [(7, samplePrev)], SlowRing.new 3⟩ [] =
        some (s1, evs1) ∧
      runTick s1 [sampleRaw] =
        some (⟨[(7, sampleQ.RunningMicros)],
               [(7, { sampleQ with DeltaMicros := sampleQ.RunningMicros })], s1.history⟩,
              if sampleQ.RunningMicros < 10000 then []
              else [.counterAdd sampleQ.EffectiveUser sampleQ.Operation sampleQ.Namespace
                      ((sampleQ.RunningMicros : ℚ) / 1000)]) :=
  C7_id_reuse 7 samplePrev (SlowRing.new 3) sampleQ sampleRaw rfl rfl

/-! ### C8 -/

/-- A raw entry whose `opid` is a returned parse error is skipped by the
per-entry loop without affecting its siblings. -/
theorem phase1_skip_err (raw : RawDoc) (e : String) (hp : Parse raw = .err e) :
    ∀ (L1 : List RawDoc) (L2 : List RawDoc) (s : MongoSlow) (cur : List Int),
      phase1 s cur (L1 ++ raw :: L2) = phase1 s cur (L1 ++ L2) := by
  intro L1
  induction L1 with
  | nil =>
    intro L2 s cur
    simp [phase1, hp]
  | cons r L1 ih =>
    intro L2 s cur
    rw [List.cons_append, List.cons_append]
    cases hr : Parse r with
    | panic => simp [phase1, hr]
    | err e2 =>
      simp only [phase1, hr]
      exact ih L2 s cur
    | ok q0 =>
      simp only [phase1, hr]
      rw [ih]

/-- A raw entry with a wrong-typed `opid` (an `int64` where the code
asserts `int32`): `Parse` panics instead of returning an error. -/
def wrongTypedRaw : RawDoc :=
  [("opid", .vInt64 7), ("microsecs_running", .vInt64 2000000),
   ("op", .vString "query"), ("ns", .vString "app.users"),
   ("effectiveUsers", .vArr [.vDoc [("user", .vString "bob")]])]

/-- A raw entry with no `opid` key at all. -/
def missingOpidRaw : RawDoc := [("op", .vString "query")]

/-- **C8, counterexample.** The claim says every entry with a missing or
wrong-typed required key makes `Parse` return a `ParseError` and the
tick continues.  For the concrete entry whose `opid` holds an `int64`
instead of the asserted `int32`, `Parse` panics (a failed Go type
assertion), no error value is returned, and the whole tick aborts
(models the process crash), rather than skipping the entry. -/
theorem C8_counterexample :
    Parse wrongTypedRaw = .panic ∧
    (Parse wrongTypedRaw).isErr = false ∧
    runTick New [wrongTypedRaw] = none :=
  ⟨rfl, rfl, rfl⟩

/-- **C8, amended.** For every raw snapshot entry with a *missing*
required key, `Parse` returns the error naming that field, and the
reconcile loop skips the entry, processing every sibling entry of the
tick unchanged.  (An entry whose required key is present but
wrong-typed instead causes a runtime panic that aborts the tick — see
the counterexample.)  The five missing-key errors follow the order the
code checks the keys in. -/
theorem C8_missing_key_skipped :
    (∀ (s : MongoSlow) (L1 L2 : List RawDoc) (raw : RawDoc) (e : String),
        Parse raw = .err e → runTick s (L1 ++ raw :: L2) = runTick s (L1 ++ L2)) ∧
    (∀ raw : RawDoc, lookupKey raw "opid" = none →
        Parse raw = .err "missing opid field") ∧
    (∀ (raw : RawDoc) (n : Int), lookupKey raw "opid" = some (.vInt32 n) →
        lookupKey raw "microsecs_running" = none →
        Parse raw = .err "missing microseconds_running") ∧
    (∀ (raw : RawDoc) (n m : Int), lookupKey raw "opid" = some (.vInt32 n) →
        lookupKey raw "microsecs_running" = some (.vInt64 m) →
        lookupKey raw "op" = none → Parse raw = .err "missing op") ∧
    (∀ (raw : RawDoc) (n m : Int) (o : String), lookupKey raw "opid" = some (.vInt32 n) →
        lookupKey raw "microsecs_running" = some (.vInt64 m) →
        lookupKey raw "op" = some (.vString o) →
        lookupKey raw "ns" = none → Parse raw = .err "missing ns") ∧
    (∀ (raw : RawDoc) (n m : Int) (o nsv : String), lookupKey raw "opid" = some (.vInt32 n) →
        lookupKey raw "microsecs_running" = some (.vInt64 m) →
        lookupKey raw "op" = some (.vString o) →
        lookupKey raw "ns" = some (.vString nsv) →
        lookupKey raw "effectiveUsers" = none →
        Parse raw = .err "missing effective user field") := by
  refine ⟨?_, ?_, ?_, ?_, ?_, ?_⟩
  · intro s L1 L2 raw e hp
    unfold runTick
    rw [phase1_skip_err raw e hp]
  · intro raw h1
    simp [Parse, h1]
  · intro raw n h1 h2
    simp [Parse, h1, h2]
  · intro raw n m h1 h2 h3
    simp [Parse, h1, h2, h3]
  · intro raw n m o h1 h2 h3 h4
    simp [Parse, h1, h2, h3, h4]
  · intro raw n m o nsv h1 h2 h3 h4 h5
    simp [Parse, h1, h2, h3, h4, h5]

/-- Witness for the amended C8: a concrete entry missing its `opid` is
reported with the right error message and skipped, leaving the sibling
entry's processing unchanged. -/
theorem C8_witness :
    runTick New ([sampleRaw] ++ missingOpidRaw :: []) = runTick New ([sampleRaw] ++ []) ∧
    Parse missingOpidRaw = .err "missing opid field" :=
  ⟨C8_missing_key_skipped.1 New [sampleRaw] [] missingOpidRaw "missing opid field" rfl,
   C8_missing_key_skipped.2.1 missingOpidRaw rfl⟩

/-! ### C9 -/

theorem lastIndex_eq_none (c : Char) : ∀ l : List Char, c ∉ l → lastIndex l c = none := by
  intro l
  induction l with
  | nil => intro _; rfl
  | cons x xs ih =>
    intro hm
    have hx : ¬(x = c) := fun he => hm (he ▸ List.mem_cons_self x xs)
    have hxs : c ∉ xs := fun hc => hm (List.mem_cons_of_mem _ hc)
    simp [lastIndex, ih hxs, hx]

theorem lastIndex_append_last (c : Char) : ∀ (a b : List Char), c ∉ b →
    lastIndex (a ++ c :: b) c = some a.length := by
  intro a
  induction a with
  | nil =>
    intro b hb
    simp [lastIndex, lastIndex_eq_none c b hb]
  | cons x a ih =>
    intro b hb
    simp [lastIndex, ih b hb]

/-- **C9.** User normalization: `"auto-default-abc123"` becomes
`"auto-default"`; any user string with no hyphen is returned unchanged;
and in general any string of the form `a ++ "-" ++ b` with a hyphen-free
suffix `b` is truncated at that last hyphen, yielding `a`. -/
theorem C9_user_normalization :
    trimRandomBytes "auto-default-abc123" = "auto-default" ∧
    (∀ user : String, '-' ∉ user.data → trimRandomBytes user = user) ∧
    (∀ a b : String, '-' ∉ b.data → trimRandomBytes (a ++ "-" ++ b) = a) := by
  refine ⟨by decide, ?_, ?_⟩
  · intro user h
    simp [trimRandomBytes, lastIndex_eq_none '-' user.data h]
  · intro a b hb
    have hdata : (a ++ "-" ++ b).data = a.data ++ '-' :: b.data := by
      rw [String.data_append, String.data_append]
      simp
    simp only [trimRandomBytes, hdata, lastIndex_append_last '-' a.data b.data hb]
    rw [List.take_left' rfl]

/-- Witness for C9 on concrete user strings. -/
theorem C9_witness :
    trimRandomBytes "bob" = "bob" ∧ trimRandomBytes ("auto" ++ "-" ++ "xyz") = "auto" :=
  ⟨C9_user_normalization.2.1 "bob" (by decide),
   C9_user_normalization.2.2 "auto" "xyz" (by decide)⟩

end Mongoslow

namespace Mongoslow

/-! ### C10: the two tracker maps stay in sync -/

@[simp] theorem keysA_nil {α : Type} : keysA ([] : List (Int × α)) = [] := rfl

@[simp] theorem keysA_cons {α : Type} (p : Int × α) (l : List (Int × α)) :
    keysA (p :: l) = p.1 :: keysA l := rfl

theorem keysA_upsert {α : Type} (l : List (Int × α)) (k : Int) (v : α) :
    keysA (upsert l k v) = if k ∈ keysA l then keysA l else keysA l ++ [k] := by
  induction l with
  | nil => simp [upsert]
  | cons p rest ih =>
    obtain ⟨k', w⟩ := p
    by_cases he : k' = k
    · subst he
      simp [upsert]
    · by_cases hm : k ∈ keysA rest
      · simp [upsert, he, ih, hm, List.mem_cons, Ne.symm he]
      · simp [upsert, he, ih, hm, List.mem_cons, Ne.symm he]

theorem nodup_keysA_upsert {α : Type} (l : List (Int × α)) (k : Int) (v : α)
    (h : (keysA l).Nodup) : (keysA (upsert l k v)).Nodup := by
  rw [keysA_upsert]
  by_cases hm : k ∈ keysA l
  · simp [hm, h]
  · simp only [hm, if_false]
    refine List.Nodup.append h (List.nodup_singleton k) ?_
    intro x hx hxk
    have : x = k := by simpa using hxk
    subst this
    exact hm hx

theorem keysA_eraseA {α : Type} (l : List (Int × α)) (k : Int) :
    keysA (eraseA l k) = (keysA l).erase k := by
  induction l with
  | nil => simp [eraseA]
  | cons p rest ih =>
    obtain ⟨k', w⟩ := p
    by_cases he : k' = k
    · subst he
      simp [eraseA]
    · simp [eraseA, he, ih, List.erase_cons]

theorem lookupA_isSome_iff {α : Type} (l : List (Int × α)) (k : Int) :
    (lookupA l k).isSome = true ↔ k ∈ keysA l := by
  induction l with
  | nil => simp
  | cons p rest ih =>
    obtain ⟨k', w⟩ := p
    by_cases he : k' = k
    · subst he
      simp
    · simp [he, ih, Ne.symm he]

/-- The sanity condition the tracker maintains: both maps list exactly
the same operation ids, without duplicates. -/
def WF (s : MongoSlow) : Prop :=
  keysA s.runningQueryTimes = keysA s.runningQueries ∧ (keysA s.runningQueryTimes).Nodup

theorem WF_upsert (s : MongoSlow) (k micros : Int) (q : Query) (hwf : WF s) :
    WF ⟨upsert s.runningQueryTimes k micros, upsert s.runningQueries k q, s.history⟩ := by
  constructor
  · show keysA (upsert s.runningQueryTimes k micros) = keysA (upsert s.runningQueries k q)
    rw [keysA_upsert, keysA_upsert, hwf.1]
  · exact nodup_keysA_upsert _ _ _ hwf.2

theorem phase1_wf : ∀ (snap : List RawDoc) (s : MongoSlow) (cur : List Int),
    WF s → (∀ raw ∈ snap, (Parse raw).isPanic = false) →
    ∃ r : MongoSlow × List Int × List Event, phase1 s cur snap = some r ∧ WF r.1 := by
  intro snap
  induction snap with
  | nil =>
    intro s cur hwf _
    exact ⟨(s, cur, []), rfl, hwf⟩
  | cons raw rest ih =>
    intro s cur hwf hp
    have hrest : ∀ x ∈ rest, (Parse x).isPanic = false :=
      fun x hx => hp x (List.mem_cons_of_mem _ hx)
    cases hr : Parse raw with
    | panic =>
      exfalso
      have := hp raw (List.mem_cons_self _ _)
      rw [hr] at this
      simp [ParseResult.isPanic] at this
    | err e =>
      obtain ⟨r, heq, hwfr⟩ := ih s cur hwf hrest
      exact ⟨r, by simp [phase1, hr, heq], hwfr⟩
    | ok q0 =>
      rcases hl : lookupA s.runningQueryTimes q0.OperationID with _ | last
      · obtain ⟨r, heq, hwfr⟩ :=
          ih ⟨upsert s.runningQueryTimes q0.OperationID q0.RunningMicros,
              upsert s.runningQueries q0.OperationID { q0 with DeltaMicros := q0.RunningMicros },
              s.history⟩
            (q0.OperationID :: cur)
            (WF_upsert s _ _ _ hwf) hrest
        refine ⟨(r.1, r.2.1, Query.Inc { q0 with DeltaMicros := q0.RunningMicros } ++ r.2.2), ?_, hwfr⟩
        simp [phase1, hr, hl, heq]
      · obtain ⟨r, heq, hwfr⟩ :=
          ih ⟨upsert s.runningQueryTimes q0.OperationID q0.RunningMicros,
              upsert s.runningQueries q0.OperationID
                { q0 with DeltaMicros := wrap64 (q0.RunningMicros - last) },
              s.history⟩
            (q0.OperationID :: cur)
            (WF_upsert s _ _ _ hwf) hrest
        refine ⟨(r.1, r.2.1,
              Query.Inc { q0 with DeltaMicros := wrap64 (q0.RunningMicros - last) } ++ r.2.2),
            ?_, hwfr⟩
        simp [phase1, hr, hl, heq]

theorem phase2_wf : ∀ (opids : List Int) (s : MongoSlow) (cur : List Int),
    WF s → opids.Nodup → (∀ o ∈ opids, o ∈ keysA s.runningQueryTimes) →
    ∃ r : MongoSlow × List Event, phase2 s cur opids = some r ∧ WF r.1 := by
  intro opids
  induction opids with
  | nil =>
    intro s cur hwf _ _
    exact ⟨(s, []), rfl, hwf⟩
  | cons o rest ih =>
    intro s cur hwf hnd hmem
    have hndr : rest.Nodup := (List.nodup_cons.mp hnd).2
    by_cases hc : o ∈ cur
    · obtain ⟨r, heq, hwfr⟩ := ih s cur hwf hndr
        (fun x hx => hmem x (List.mem_cons_of_mem _ hx))
      exact ⟨r, by simp [phase2, hc, heq], hwfr⟩
    · have ho : o ∈ keysA s.runningQueryTimes := hmem o (List.mem_cons_self _ _)
      have ho2 : o ∈ keysA s.runningQueries := hwf.1 ▸ ho
      obtain ⟨qr, hqr⟩ := Option.isSome_iff_exists.mp ((lookupA_isSome_iff _ _).mpr ho2)
      have hwf' : WF ⟨eraseA s.runningQueryTimes o, eraseA s.runningQueries o,
          if HistoryQueryThreshold < (lookupA s.runningQueryTimes o).getD 0 then
            if qr.Namespace = "admin.$cmd" then s.history else History s.history qr
          else s.history⟩ := by
        constructor
        · show keysA (eraseA s.runningQueryTimes o) = keysA (eraseA s.runningQueries o)
          rw [keysA_eraseA, keysA_eraseA, hwf.1]
        · show (keysA (eraseA s.runningQueryTimes o)).Nodup
          rw [keysA_eraseA]
          exact hwf.2.erase o
      have hmem' : ∀ x ∈ rest, x ∈ keysA (eraseA s.runningQueryTimes o) := by
        intro x hx
        rw [keysA_eraseA]
        have hxo : x ≠ o := by
          rintro rfl
          exact (List.nodup_cons.mp hnd).1 hx
        exact (List.mem_erase_of_ne hxo).mpr (hmem x (List.mem_cons_of_mem _ hx))
      obtain ⟨r, heq, hwfr⟩ := ih _ cur hwf' hndr hmem'
      refine ⟨(r.1, qr.Observe ++ r.2), ?_, hwfr⟩
      simp [phase2, hc, hqr, heq]

/-- **C10.** Starting from the state `New` initialises, the two tracker
maps always hold exactly the same operation ids: the invariant holds
initially, and every tick that does not hit a parse panic completes
(`some` — in particular the completion path's `runningQueries` lookup
for each disappeared id always finds a record, so it never dereferences
nil) and preserves the invariant; afterwards an id is present in
`runningQueryTimes` exactly when it is present in `runningQueries`. -/
theorem C10_maps_in_sync :
    WF New ∧
    ∀ (s : MongoSlow) (snap : List RawDoc), WF s →
      (∀ raw ∈ snap, (Parse raw).isPanic = false) →
      ∃ (s' : MongoSlow) (evs : List Event), runTick s snap = some (s', evs) ∧ WF s' ∧
        ∀ k : Int, (lookupA s'.runningQueryTimes k).isSome ↔
          (lookupA s'.runningQueries k).isSome := by
  constructor
  · exact ⟨rfl, List.nodup_nil⟩
  · intro s snap hwf hp
    obtain ⟨⟨s1, cur1, evs1⟩, h1, hwf1⟩ := phase1_wf snap s [] hwf hp
    obtain ⟨⟨s2, evs2⟩, h2, hwf2⟩ :=
      phase2_wf (keysA s1.runningQueryTimes) s1 cur1 hwf1 hwf1.2 (fun o ho => ho)
    refine ⟨s2, evs1 ++ evs2, ?_, hwf2, ?_⟩
    · unfold runTick
      rw [h1]
      simp [h2]
    · intro k
      rw [lookupA_isSome_iff, lookupA_isSome_iff, hwf2.1]

/-- Witness for C10: one tick over a one-entry snapshot from the fresh
state completes and preserves the invariant. -/
theorem C10_witness :
    ∃ (s' : MongoSlow) (evs : List Event), runTick New [sampleRaw] = some (s', evs) ∧ WF s' ∧
      ∀ k : Int, (lookupA s'.runningQueryTimes k).isSome ↔
        (lookupA s'.runningQueries k).isSome :=
  C10_maps_in_sync.2 New [sampleRaw] ⟨rfl, List.nodup_nil⟩
    (fun raw hraw => by
      rw [List.mem_singleton] at hraw
      rw [hraw]
      rfl)

end Mongoslow
